import Mathlib

/-!
Verification of the signal-derivation pipeline of `src/app.py` (crypto hybrid
dashboard).  The pipeline is embedded shallowly: timestamps are abstract day
numbers (`ℕ`, with weekly buckets `(S-7, S]` labelled by their right/closing
boundary `S`, a multiple of 7, matching pandas `resample("W")` with its
`closed="right", label="right"` default), prices are exact rationals, and the
IEEE not-a-number sentinel produced by the indicator library is modelled by
`Option ℚ` with `Option.none` for NaN (every comparison against NaN is false).
-/

/-- Per-bar categorical signal.  `Signal.none` models the empty-string
sentinel `""` used by `app.py` for "no signal". -/
inductive Signal : Type
  | buy
  | sell
  | none
deriving DecidableEq, Repr

/-- One OHLCV candle.  `ts` is the timestamp (abstract day number);
`open_` renames the Python column `open` (a Lean keyword). -/
structure Candle : Type where
  ts : ℕ
  open_ : ℚ
  high : ℚ
  low : ℚ
  close : ℚ
  volume : ℚ
deriving DecidableEq, Repr

/-- Strict `<` on possibly-NaN floats: any comparison involving NaN is false
(pandas semantics of `df["rsi"] < thr`, `df["macd"] > df["macd_signal"]`). -/
def oLt : Option ℚ → Option ℚ → Bool
  | Option.some a, Option.some b => decide (a < b)
  | _, _ => false

/-- Lines 44-52 of `app.py`: the column starts as `""`, the BUY mask is
assigned first and the SELL mask is assigned afterwards, so on (hypothetical)
overlap the later SELL assignment would overwrite. -/
def classifyCode (buyT sellT : ℚ) (rsi macd macdSig : Option ℚ) : Signal :=
  let s0 := Signal.none
  let s1 := if oLt rsi (Option.some buyT) && oLt macdSig macd then Signal.buy else s0
  let s2 := if oLt (Option.some sellT) rsi && oLt macd macdSig then Signal.sell else s1
  s2

/-- The Signal Classifier as worded in the spec (section 4.3): for a bar with
defined indicators, the BUY check is evaluated first and SELL only if BUY did
not match; bars with undefined indicators classify as NONE. -/
def classifySpec (buyT sellT : ℚ) : Option ℚ → Option ℚ → Option ℚ → Signal
  | Option.some r, Option.some m, Option.some s =>
      if r < buyT ∧ s < m then Signal.buy
      else if sellT < r ∧ m < s then Signal.sell
      else Signal.none
  | _, _, _ => Signal.none

/-- Lines 79-87 of `app.py`: the hybrid trade-signal rule applied to one bar. -/
def fuseCode (daily weekly : Signal) : Signal :=
  if daily = Signal.buy ∧ weekly ≠ Signal.sell then Signal.buy
  else if weekly = Signal.sell then Signal.sell
  else Signal.none

/-- Hybrid Fusion as worded in the spec (section 4.5): weekly SELL is an
absolute veto, else daily BUY is honoured, else NONE. -/
def fuseSpec (daily weekly : Signal) : Signal :=
  if weekly = Signal.sell then Signal.sell
  else if daily = Signal.buy then Signal.buy
  else Signal.none

/-- Closing boundary of the weekly bucket containing day `t`: the least
multiple of 7 that is `≥ t` (pandas weekly bins are `(S-7, S]`, right-closed
and right-labelled). -/
def weekEnd (t : ℕ) : ℕ := t + (7 - t % 7) % 7

/-- The candles falling in the weekly bucket whose closing boundary is `lbl`. -/
def bucketMembers (candles : List Candle) (lbl : ℕ) : List Candle :=
  candles.filter (fun c => weekEnd c.ts == lbl)

/-- `max` aggregation: NaN on an empty group (pandas `agg {"high": "max"}`). -/
def maxO : List ℚ → Option ℚ
  | [] => Option.none
  | x :: xs => Option.some (xs.foldl max x)

/-- `min` aggregation: NaN on an empty group (pandas `agg {"low": "min"}`). -/
def minO : List ℚ → Option ℚ
  | [] => Option.none
  | x :: xs => Option.some (xs.foldl min x)

/-- One row of the weekly resampled frame.  OHLC fields are `Option` because
pandas emits NaN for the `first`/`max`/`min`/`last` aggregates of an empty
bucket, while `sum` of an empty bucket is 0. -/
structure WRow : Type where
  ts : ℕ
  open_ : Option ℚ
  high : Option ℚ
  low : Option ℚ
  close : Option ℚ
  volume : ℚ
deriving DecidableEq, Repr

/-- Aggregate row of one weekly bucket, per the `agg` dict on lines 55-57 of
`app.py`: open = first, high = max, low = min, close = last, volume = sum. -/
def aggBucket (lbl : ℕ) (ms : List Candle) : WRow :=
  { ts := lbl
    open_ := ms.head?.map Candle.open_
    high := maxO (ms.map Candle.high)
    low := minO (ms.map Candle.low)
    close := ms.getLast?.map Candle.close
    volume := (ms.map Candle.volume).sum }

/-- `df.resample("W").agg(...)` (lines 55-57 of `app.py`): one row for every
weekly bucket label from the first candle's bucket to the last candle's
bucket, in steps of 7 — including buckets that contain no candle. -/
def resampleW (candles : List Candle) : List WRow :=
  match candles with
  | [] => []
  | c :: cs =>
      let ends := (c :: cs).map (fun d => weekEnd d.ts)
      let lo := ends.foldl min (weekEnd c.ts)
      let hi := ends.foldl max (weekEnd c.ts)
      (List.range ((hi - lo) / 7 + 1)).map
        (fun i => aggBucket (lo + 7 * i) (bucketMembers candles (lo + 7 * i)))

/-- `weekly["signal"].reindex(df.index, method="ffill")` (line 73 of
`app.py`): at target time `t`, the value at the most recent source label
`≤ t`, or NaN (`Option.none`) when no source label has been reached yet. -/
def reindexFfill (coarse : List (ℕ × Signal)) (t : ℕ) : Option Signal :=
  ((coarse.filter (fun p => decide (p.1 ≤ t))).getLast?).map Prod.snd

/-- `.fillna("")` (line 73 of `app.py`): the NaN left by the reindex is
replaced by the empty-string sentinel. -/
def fillnaNone : Option Signal → Signal
  | Option.some s => s
  | Option.none => Signal.none

/-- The aligned weekly signal at fine timestamp `t`. -/
def alignSignal (coarse : List (ℕ × Signal)) (t : ℕ) : Signal :=
  fillnaNone (reindexFfill coarse t)

/-- Lift a binary operation to possibly-NaN values (NaN-in, NaN-out). -/
def omap2 (f : ℚ → ℚ → ℚ) : Option ℚ → Option ℚ → Option ℚ
  | Option.some a, Option.some b => Option.some (f a b)
  | _, _ => Option.none

/-- `Series.diff(1)`: NaN in the first slot, then `x[i] - x[i-1]`. -/
def diffO : List (Option ℚ) → List (Option ℚ)
  | [] => []
  | x :: xs => Option.none :: List.zipWith (omap2 (fun a b => a - b)) xs (x :: xs)

/-- Number of defined (non-NaN) entries. -/
def someCount (xs : List (Option ℚ)) : ℕ := xs.countP (fun o => o.isSome)

/-- Recursion behind pandas `ewm(adjust=False, ignore_na=False,
min_periods=minp).mean()`, following the pandas `ewma` kernel: `st` is the
running mean (`Option.none` before the first observation), `wt` the relative
weight of the old mean, `cnt` the number of non-NaN observations consumed.
Output is NaN until `minp` observations have been seen.  A NaN input leaves
the mean in place (carried to the output once `minp` is reached) but decays
the old weight by `1 - a` — absolute-position weighting; a valid input folds
in with weight `a` and resets the old weight to 1, which on gap-free input
reduces to `y = (1-a)*y + a*x`. -/
def ewmGo (a : ℚ) (minp : ℕ) : Option ℚ → ℚ → ℕ → List (Option ℚ) → List (Option ℚ)
  | _, _, _, [] => []
  | Option.none, wt, cnt, Option.none :: xs =>
      Option.none :: ewmGo a minp Option.none wt cnt xs
  | Option.some p, wt, cnt, Option.none :: xs =>
      (if minp ≤ cnt then Option.some p else Option.none) ::
        ewmGo a minp (Option.some p) ((1 - a) * wt) cnt xs
  | Option.none, _, cnt, Option.some x :: xs =>
      (if minp ≤ cnt + 1 then Option.some x else Option.none) ::
        ewmGo a minp (Option.some x) 1 (cnt + 1) xs
  | Option.some p, wt, cnt, Option.some x :: xs =>
      let w2 := (1 - a) * wt
      let st2 := (w2 * p + a * x) / (w2 + a)
      (if minp ≤ cnt + 1 then Option.some st2 else Option.none) ::
        ewmGo a minp (Option.some st2) 1 (cnt + 1) xs

/-- `ewm(alpha or span, adjust=False, min_periods=minp).mean()`. -/
def ewmMean (a : ℚ) (minp : ℕ) (xs : List (Option ℚ)) : List (Option ℚ) :=
  ewmGo a minp Option.none 1 0 xs

/-- RSI from the smoothed gain/loss averages, per the `ta` library's
`np.where(emadn == 0, 100, 100 - 100/(1 + emaup/emadn))`: a zero loss
average gives exactly 100 — including on flat prices, where the gain average
is zero as well; otherwise the bounded Wilder formula. -/
def rsiFromAvgs (up dn : ℚ) : Option ℚ :=
  if dn = 0 then Option.some 100
  else Option.some (100 - 100 / (1 + up / dn))

/-- Combine the two smoothed averages into the RSI value of one bar. -/
def rsiCombine : Option ℚ → Option ℚ → Option ℚ
  | Option.some a, Option.some b => rsiFromAvgs a b
  | _, _ => Option.none

/-- `diff.where(diff > 0, 0.0)`: keeps positive moves; a zero or negative
move — and also a NaN diff, which fails the comparison — becomes 0.0, a
defined (counted) observation. -/
def whereGain : Option ℚ → Option ℚ
  | Option.some d => Option.some (if 0 < d then d else 0)
  | Option.none => Option.some 0

/-- `-diff.where(diff < 0, -0.0)`: the magnitude of negative moves; a zero
or positive move — and also a NaN diff — becomes 0.0. -/
def whereLoss : Option ℚ → Option ℚ
  | Option.some d => Option.some (if d < 0 then -d else 0)
  | Option.none => Option.some 0

/-- `ta.momentum.RSIIndicator(close, window).rsi()`: up/down moves from
`diff` with NaNs coerced to counted 0.0 observations by `where`, Wilder
smoothing `ewm(alpha=1/window, min_periods=window, adjust=False)`, then the
`np.where(emadn == 0, ...)` formula of `rsiFromAvgs`.  Because the first NaN
diff is coerced to a counted observation, the RSI is defined from bar index
`window - 1` on. -/
def rsiSeriesO (window : ℕ) (closes : List (Option ℚ)) : List (Option ℚ) :=
  let d := diffO closes
  let au := ewmMean (1 / (window : ℚ)) window (d.map whereGain)
  let ad := ewmMean (1 / (window : ℚ)) window (d.map whereLoss)
  List.zipWith rsiCombine au ad

/-- The `ta` library's EMA: `ewm(span, min_periods=span, adjust=False)`. -/
def emaSpan (span : ℕ) (xs : List (Option ℚ)) : List (Option ℚ) :=
  ewmMean (2 / ((span : ℚ) + 1)) span xs

/-- `ta.trend.MACD(...).macd()`: fast EMA minus slow EMA. -/
def macdLineO (fast slow : ℕ) (xs : List (Option ℚ)) : List (Option ℚ) :=
  List.zipWith (omap2 (fun a b => a - b)) (emaSpan fast xs) (emaSpan slow xs)

/-- `ta.trend.MACD(...).macd_signal()`: EMA of the MACD line. -/
def macdSignalO (fast slow sign : ℕ) (xs : List (Option ℚ)) : List (Option ℚ) :=
  emaSpan sign (macdLineO fast slow xs)

/-- One bar of the final frame: the untouched input candle plus the derived
columns added by `app.py`. -/
structure Row : Type where
  candle : Candle
  rsi : Option ℚ
  macd : Option ℚ
  macdSig : Option ℚ
  dailySig : Signal
  weeklySig : Signal
  tradeSig : Signal
deriving DecidableEq, Repr

/-- Pointwise application of the classifier to the three indicator columns. -/
def zip3With (f : Option ℚ → Option ℚ → Option ℚ → Signal) :
    List (Option ℚ) → List (Option ℚ) → List (Option ℚ) → List Signal
  | a :: as, b :: bs, c :: cs => f a b c :: zip3With f as bs cs
  | _, _, _ => []

/-- Assemble the final rows: each input candle with its indicator values, its
daily signal, the aligned weekly signal at its timestamp, and the fused
hybrid trade signal. -/
def buildRows (coarse : List (ℕ × Signal)) :
    List Candle → List (Option ℚ) → List (Option ℚ) → List (Option ℚ) →
      List Signal → List Row
  | c :: cs, r :: rs, m :: ms, s :: ss, d :: ds =>
      let w := alignSignal coarse c.ts
      { candle := c, rsi := r, macd := m, macdSig := s,
        dailySig := d, weeklySig := w, tradeSig := fuseCode d w } ::
        buildRows coarse cs rs ms ss ds
  | _, _, _, _, _ => []

/-- Lines 58-70 of `app.py`: weekly indicators over the resampled closes and
the weekly BUY/SELL classification. -/
def weeklySignals (buyW sellW : ℚ) (weekly : List WRow) : List Signal :=
  let wc := weekly.map WRow.close
  zip3With (classifyCode buyW sellW)
    (rsiSeriesO 14 wc) (macdLineO 12 26 wc) (macdSignalO 12 26 9 wc)

/-- The weekly signal series keyed by bucket closing boundary. -/
def coarseSeries (buyW sellW : ℚ) (candles : List Candle) : List (ℕ × Signal) :=
  List.zipWith (fun (r : WRow) s => (r.ts, s))
    (resampleW candles) (weeklySignals buyW sellW (resampleW candles))

/-- The whole signal-derivation pipeline of `app.py` (lines 38-88): daily
indicators and classification, weekly resample/indicators/classification,
forward-fill alignment, hybrid fusion. -/
def pipeline (buyD sellD buyW sellW : ℚ) (input : List Candle) : List Row :=
  let closes := input.map (fun c => Option.some c.close)
  let rsiD := rsiSeriesO 14 closes
  let macdD := macdLineO 12 26 closes
  let sigD := macdSignalO 12 26 9 closes
  let daily := zip3With (classifyCode buyD sellD) rsiD macdD sigD
  buildRows (coarseSeries buyW sellW input) input rsiD macdD sigD daily

/-! ### Helper lemmas -/

/-- Every row produced by `buildRows` carries its own candle, indicator values
and daily signal from the corresponding input lists, its weekly signal is the
aligned coarse signal at its own timestamp, and its trade signal is the fusion
of its own daily and weekly signals. -/
theorem buildRows_mem (co : List (ℕ × Signal)) :
    ∀ (cs : List Candle) (rs ms ss : List (Option ℚ)) (ds : List Signal) (r : Row),
      r ∈ buildRows co cs rs ms ss ds →
      r.candle ∈ cs ∧ r.rsi ∈ rs ∧ r.macd ∈ ms ∧ r.macdSig ∈ ss ∧ r.dailySig ∈ ds ∧
      r.weeklySig = alignSignal co r.candle.ts ∧
      r.tradeSig = fuseCode r.dailySig r.weeklySig := by
  intro cs
  induction cs with
  | nil => intro rs ms ss ds r hr; simp [buildRows] at hr
  | cons c cs ih =>
    intro rs ms ss ds r hr
    rcases rs with _ | ⟨r0, rs⟩
    · simp [buildRows] at hr
    rcases ms with _ | ⟨m0, ms⟩
    · simp [buildRows] at hr
    rcases ss with _ | ⟨s0, ss⟩
    · simp [buildRows] at hr
    rcases ds with _ | ⟨d0, ds⟩
    · simp [buildRows] at hr
    rcases List.mem_cons.mp hr with h | h
    · subst h
      exact ⟨List.mem_cons_self _ _, List.mem_cons_self _ _, List.mem_cons_self _ _,
        List.mem_cons_self _ _, List.mem_cons_self _ _, rfl, rfl⟩
    · obtain ⟨h1, h2, h3, h4, h5, h6, h7⟩ := ih rs ms ss ds r h
      exact ⟨List.mem_cons_of_mem _ h1, List.mem_cons_of_mem _ h2, List.mem_cons_of_mem _ h3,
        List.mem_cons_of_mem _ h4, List.mem_cons_of_mem _ h5, h6, h7⟩

/-! ### C1: classifier BUY/SELL exclusivity and BUY precedence -/

/-- C1: for every threshold configuration and every bar, the BUY mask
(`rsi < buy` and `macd > macd_signal`) and the SELL mask (`rsi > sell` and
`macd < macd_signal`) can never hold simultaneously, and the classifier of
`app.py` (BUY assigned first, SELL assigned second) coincides bar-for-bar with
the spec's classifier in which the BUY check is evaluated first and SELL is
assigned only if BUY did not match; hence no bar carries both labels and BUY
takes precedence at the boundary. -/
theorem classifier_buy_precedence :
    (∀ (buyT sellT : ℚ) (r m s : Option ℚ),
        ((oLt r (Option.some buyT) && oLt s m) &&
          (oLt (Option.some sellT) r && oLt m s)) = false) ∧
    (∀ (buyT sellT : ℚ) (r m s : Option ℚ),
        classifyCode buyT sellT r m s = classifySpec buyT sellT r m s) := by
  constructor
  · intro buyT sellT r m s
    rcases m with _ | mv <;> rcases s with _ | sv <;>
      simp only [oLt, Bool.false_and, Bool.and_false] <;> try rfl
    by_cases h : sv < mv
    · simp [decide_eq_false (lt_asymm h)]
    · simp [decide_eq_false h]
  · intro buyT sellT r m s
    rcases r with _ | rv <;> rcases m with _ | mv <;> rcases s with _ | sv <;>
      simp only [classifyCode, classifySpec, oLt, Bool.false_and, Bool.and_false,
        Bool.and_eq_true, decide_eq_true_eq, if_false, Bool.false_eq_true] <;>
      try rfl
    by_cases h1 : rv < buyT <;> by_cases h2 : sv < mv <;>
      by_cases h3 : sellT < rv <;> by_cases h4 : mv < sv <;>
      simp [h1, h2, h3, h4]
    all_goals exact absurd (h2.trans h4) (lt_irrefl _)

/-! ### C4: hybrid fusion, weekly SELL veto -/

/-- C4: the fusion rule of `app.py` agrees with the spec's precedence
(weekly SELL is an absolute veto regardless of the daily signal; otherwise
daily BUY is honoured; otherwise NONE — so a daily SELL alone never produces
an output SELL), and every bar of the final frame gets exactly the fusion of
its own (daily, aligned-weekly) pair, depending on nothing else. -/
theorem fusion_weekly_sell_veto :
    (∀ d w : Signal, fuseCode d w = fuseSpec d w) ∧
    (∀ d w : Signal, w = Signal.sell → fuseCode d w = Signal.sell) ∧
    (∀ d w : Signal, w ≠ Signal.sell → d = Signal.buy → fuseCode d w = Signal.buy) ∧
    (∀ d w : Signal, w ≠ Signal.sell → d ≠ Signal.buy → fuseCode d w = Signal.none) ∧
    (∀ (bD sD bW sW : ℚ) (input : List Candle) (r : Row),
      r ∈ pipeline bD sD bW sW input →
      r.tradeSig = fuseCode r.dailySig r.weeklySig) := by
  refine ⟨?_, ?_, ?_, ?_, ?_⟩
  · intro d w; cases d <;> cases w <;> rfl
  · intro d w hw; subst hw; cases d <;> rfl
  · intro d w hw hd; subst hd; cases w <;> simp_all [fuseCode]
  · intro d w hw hd; cases w <;> cases d <;> simp_all [fuseCode]
  · intro bD sD bW sW input r hr
    exact (buildRows_mem _ _ _ _ _ _ r hr).2.2.2.2.2.2

/-- C4 witness: concrete instances of the fusion rules, including one bar of a
concretely computed pipeline run. -/
theorem fusion_weekly_sell_veto_witness :
    fuseCode Signal.buy Signal.sell = Signal.sell ∧
    fuseCode Signal.buy Signal.none = Signal.buy ∧
    fuseCode Signal.sell Signal.none = Signal.none ∧
    ({ candle := ⟨0,1,1,1,1,1⟩, rsi := Option.none, macd := Option.none, macdSig := Option.none,
       dailySig := Signal.none, weeklySig := Signal.none, tradeSig := Signal.none } : Row).tradeSig
      = fuseCode Signal.none Signal.none := by
  refine ⟨?_, ?_, ?_, ?_⟩
  · exact fusion_weekly_sell_veto.2.1 Signal.buy Signal.sell rfl
  · exact fusion_weekly_sell_veto.2.2.1 Signal.buy Signal.none (by decide) rfl
  · exact fusion_weekly_sell_veto.2.2.2.1 Signal.sell Signal.none (by decide) (by decide)
  · exact fusion_weekly_sell_veto.2.2.2.2 50 65 50 55 [⟨0,1,1,1,1,1⟩] _ (by decide)

/-! ### Length preservation through the pipeline -/

theorem length_ewmGo (a : ℚ) (minp : ℕ) (st : Option ℚ) (wt : ℚ) (cnt : ℕ)
    (xs : List (Option ℚ)) : (ewmGo a minp st wt cnt xs).length = xs.length := by
  induction xs generalizing st wt cnt with
  | nil => cases st <;> rfl
  | cons x xs ih => cases x <;> cases st <;> simp [ewmGo, ih]

theorem length_ewmMean (a : ℚ) (minp : ℕ) (xs : List (Option ℚ)) :
    (ewmMean a minp xs).length = xs.length := length_ewmGo a minp Option.none 1 0 xs

theorem length_diffO (xs : List (Option ℚ)) : (diffO xs).length = xs.length := by
  cases xs with
  | nil => rfl
  | cons x xs => simp [diffO]

theorem length_rsiSeriesO (w : ℕ) (xs : List (Option ℚ)) :
    (rsiSeriesO w xs).length = xs.length := by
  simp [rsiSeriesO, ewmMean, length_ewmGo, length_diffO]

theorem length_macdLineO (fast slow : ℕ) (xs : List (Option ℚ)) :
    (macdLineO fast slow xs).length = xs.length := by
  simp [macdLineO, emaSpan, length_ewmMean]

theorem length_macdSignalO (fast slow sign : ℕ) (xs : List (Option ℚ)) :
    (macdSignalO fast slow sign xs).length = xs.length := by
  simp [macdSignalO, emaSpan, length_ewmMean, length_macdLineO]

theorem length_zip3With (f : Option ℚ → Option ℚ → Option ℚ → Signal) :
    ∀ (as bs cs : List (Option ℚ)), bs.length = as.length → cs.length = as.length →
      (zip3With f as bs cs).length = as.length := by
  intro as
  induction as with
  | nil => intro bs cs h1 h2; simp [zip3With]
  | cons a as ih =>
    intro bs cs h1 h2
    rcases bs with _ | ⟨b, bs⟩
    · simp at h1
    rcases cs with _ | ⟨c, cs⟩
    · simp at h2
    simp only [zip3With, List.length_cons]
    rw [ih bs cs (by simpa using h1) (by simpa using h2)]

theorem buildRows_map_candle (co : List (ℕ × Signal)) :
    ∀ (cs : List Candle) (rs ms ss : List (Option ℚ)) (ds : List Signal),
      cs.length ≤ rs.length → cs.length ≤ ms.length → cs.length ≤ ss.length →
      cs.length ≤ ds.length →
      (buildRows co cs rs ms ss ds).map Row.candle = cs := by
  intro cs
  induction cs with
  | nil => intro rs ms ss ds h1 h2 h3 h4; simp [buildRows]
  | cons c cs ih =>
    intro rs ms ss ds h1 h2 h3 h4
    rcases rs with _ | ⟨r0, rs⟩
    · simp at h1
    rcases ms with _ | ⟨m0, ms⟩
    · simp at h2
    rcases ss with _ | ⟨s0, ss⟩
    · simp at h3
    rcases ds with _ | ⟨d0, ds⟩
    · simp at h4
    simp only [buildRows, List.map_cons]
    rw [ih rs ms ss ds (by simpa using h1) (by simpa using h2) (by simpa using h3)
      (by simpa using h4)]

/-- One output row per input candle, carrying that candle unchanged. -/
theorem pipeline_map_eq_input (bD sD bW sW : ℚ) (input : List Candle) :
    (pipeline bD sD bW sW input).map Row.candle = input := by
  simp only [pipeline]
  have hr : (rsiSeriesO 14 (input.map (fun c => Option.some c.close))).length
      = input.length := by simp [length_rsiSeriesO]
  have hm : (macdLineO 12 26 (input.map (fun c => Option.some c.close))).length
      = input.length := by simp [length_macdLineO]
  have hs2 : (macdSignalO 12 26 9 (input.map (fun c => Option.some c.close))).length
      = input.length := by simp [length_macdSignalO]
  have hd : (zip3With (classifyCode bD sD)
      (rsiSeriesO 14 (input.map (fun c => Option.some c.close)))
      (macdLineO 12 26 (input.map (fun c => Option.some c.close)))
      (macdSignalO 12 26 9 (input.map (fun c => Option.some c.close)))).length
      = input.length := by
    rw [length_zip3With _ _ _ _ (hm.trans hr.symm) (hs2.trans hr.symm), hr]
  exact buildRows_map_candle _ _ _ _ _ _ (le_of_eq hr.symm) (le_of_eq hm.symm)
    (le_of_eq hs2.symm) (le_of_eq hd.symm)

/-! ### C9: the pipeline never mutates the input series -/

/-- C9: after all stages run, the final frame still holds, bar for bar, the
identical input candles (timestamps and all five OHLCV fields); the pipeline
only adds derived columns next to them. -/
theorem pipeline_never_mutates_input :
    ∀ (bD sD bW sW : ℚ) (input : List Candle),
      (pipeline bD sD bW sW input).map Row.candle = input ∧
      (pipeline bD sD bW sW input).map (fun r => r.candle.ts) = input.map Candle.ts ∧
      (pipeline bD sD bW sW input).map (fun r => r.candle.close) = input.map Candle.close := by
  intro bD sD bW sW input
  have h := pipeline_map_eq_input bD sD bW sW input
  refine ⟨h, ?_, ?_⟩
  · have := congrArg (List.map Candle.ts) h
    simpa [List.map_map, Function.comp] using this
  · have := congrArg (List.map Candle.close) h
    simpa [List.map_map, Function.comp] using this

/-! ### C5: timestamp validation -/

/-- C5 counterexample: an input with duplicate (hence not strictly increasing)
timestamps is not rejected; the pipeline computes straight through and
produces a full-length output, no validation error ever occurring before (or
after) indicator computation. -/
theorem no_fail_fast_on_duplicate_timestamps :
    (([⟨5,1,1,1,1,1⟩, ⟨5,2,2,2,2,2⟩] : List Candle).map Candle.ts) = [5, 5] ∧
    (pipeline 50 65 50 55 [⟨5,1,1,1,1,1⟩, ⟨5,2,2,2,2,2⟩]).length = 2 ∧
    (pipeline 50 65 50 55 [⟨5,1,1,1,1,1⟩, ⟨5,2,2,2,2,2⟩]).map Row.candle =
      [⟨5,1,1,1,1,1⟩, ⟨5,2,2,2,2,2⟩] := by
  refine ⟨by decide, ?_, pipeline_map_eq_input 50 65 50 55 _⟩
  have h := congrArg List.length
    (pipeline_map_eq_input 50 65 50 55 [⟨5,1,1,1,1,1⟩, ⟨5,2,2,2,2,2⟩])
  simpa using h

/-- C5 amended: the pipeline performs no timestamp validation at all — for
every input, monotone or not, duplicated timestamps or not, the indicator,
signal and hybrid outputs are all produced, one row per input bar. -/
theorem pipeline_has_no_validation :
    ∀ (bD sD bW sW : ℚ) (input : List Candle),
      (pipeline bD sD bW sW input).length = input.length := by
  intro bD sD bW sW input
  have h := congrArg List.length (pipeline_map_eq_input bD sD bW sW input)
  simpa using h

/-! ### Alignment: strictly-causal forward fill -/

/-- In a list sorted by strictly increasing key, the last element has the
largest key. -/
theorem getLast?_key_max (l : List (ℕ × Signal))
    (hp : l.Pairwise (fun p q => p.1 < q.1)) {x : ℕ × Signal}
    (hx : l.getLast? = Option.some x) : ∀ q ∈ l, q.1 ≤ x.1 := by
  induction l with
  | nil => simp at hx
  | cons a l ih =>
    intro q hq
    rcases l with _ | ⟨b, l2⟩
    · simp at hx hq
      subst hx; subst hq; exact le_refl _
    · rw [List.getLast?_cons_cons] at hx
      rcases List.mem_cons.mp hq with h | h
      · subst h
        have hmem : x ∈ b :: l2 := List.mem_of_mem_getLast? (hx ▸ rfl)
        exact le_of_lt ((List.pairwise_cons.mp hp).1 x hmem)
      · exact ih (List.pairwise_cons.mp hp).2 hx q h

/-- C2: the Multi-Timeframe Aligner is strictly causal.  For coarse buckets
keyed by strictly increasing closing boundaries: (1) every fine timestamp `t`
reached by some bucket gets the signal of the most recent bucket whose closing
boundary is `≤ t`; (2) if no bucket has closed by `t` the aligned value is
NONE; (3) the aligned value at `t` depends only on buckets closing at or
before `t` (no look-ahead); (4) `weekEnd` is a genuine closing boundary (the
unique bucket-aligned time in `[t, t+7)`); (5) the resampler stamps every
aggregate at a time `≥` every constituent candle's timestamp. -/
theorem align_causal_most_recent :
    (∀ (coarse : List (ℕ × Signal)) (t : ℕ),
        coarse.Pairwise (fun p q => p.1 < q.1) →
        (∃ p ∈ coarse, p.1 ≤ t) →
        ∃ p ∈ coarse, p.1 ≤ t ∧ (∀ q ∈ coarse, q.1 ≤ t → q.1 ≤ p.1) ∧
          alignSignal coarse t = p.2) ∧
    (∀ (coarse : List (ℕ × Signal)) (t : ℕ),
        (∀ p ∈ coarse, t < p.1) → alignSignal coarse t = Signal.none) ∧
    (∀ (coarse : List (ℕ × Signal)) (t : ℕ),
        alignSignal coarse t =
          alignSignal (coarse.filter (fun p => decide (p.1 ≤ t))) t) ∧
    (∀ t : ℕ, t ≤ weekEnd t ∧ weekEnd t < t + 7 ∧ weekEnd t % 7 = 0) ∧
    (∀ (candles : List Candle) (lbl : ℕ) (c : Candle),
        c ∈ bucketMembers candles lbl → c.ts ≤ lbl) := by
  refine ⟨?_, ?_, ?_, ?_, ?_⟩
  · intro coarse t hsort ⟨p0, hp0, hp0le⟩
    have hp0f : p0 ∈ coarse.filter (fun p => decide (p.1 ≤ t)) :=
      List.mem_filter.mpr ⟨hp0, by simpa using hp0le⟩
    have hne : coarse.filter (fun p => decide (p.1 ≤ t)) ≠ [] := by
      intro h; rw [h] at hp0f; simp at hp0f
    obtain ⟨x, hx⟩ := Option.isSome_iff_exists.mp (List.getLast?_isSome.mpr hne)
    have hxf : x ∈ coarse.filter (fun p => decide (p.1 ≤ t)) :=
      List.mem_of_mem_getLast? (hx ▸ rfl)
    have hxc := List.mem_filter.mp hxf
    refine ⟨x, hxc.1, by simpa using hxc.2, ?_, ?_⟩
    · intro q hq hqle
      exact getLast?_key_max _ (hsort.filter _) hx q
        (List.mem_filter.mpr ⟨hq, by simpa using hqle⟩)
    · simp [alignSignal, reindexFfill, hx, fillnaNone]
  · intro coarse t h
    have : coarse.filter (fun p => decide (p.1 ≤ t)) = [] :=
      List.filter_eq_nil_iff.mpr (fun p hp => by simpa using Nat.not_le.mpr (h p hp))
    simp [alignSignal, reindexFfill, this, fillnaNone]
  · intro coarse t
    simp [alignSignal, reindexFfill, List.filter_filter]
  · intro t
    refine ⟨Nat.le_add_right _ _, ?_, ?_⟩ <;> (simp only [weekEnd]; omega)
  · intro candles lbl c hc
    have h := (List.mem_filter.mp hc).2
    have : weekEnd c.ts = lbl := by simpa using h
    calc c.ts ≤ weekEnd c.ts := Nat.le_add_right _ _
      _ = lbl := this

/-- C2 witness: with weekly buckets closing at 7 and 14, the aligned signal
on day 10 is the bucket-7 signal, and on day 3 (before any bucket has
closed) it is NONE. -/
theorem align_causal_most_recent_witness :
    alignSignal [(7, Signal.buy), (14, Signal.sell)] 10 = Signal.buy ∧
    alignSignal [(7, Signal.buy), (14, Signal.sell)] 3 = Signal.none := by
  constructor
  · obtain ⟨p, hp, hple, -, heq⟩ :=
      align_causal_most_recent.1 [(7, Signal.buy), (14, Signal.sell)] 10
        (by decide) ⟨(7, Signal.buy), by simp, by norm_num⟩
    rw [heq]
    rcases List.mem_cons.mp hp with h | h
    · rw [h]
    · simp at h
      rw [h] at hple
      norm_num at hple
  · refine align_causal_most_recent.2.1 [(7, Signal.buy), (14, Signal.sell)] 3 ?_
    intro p hp
    rcases List.mem_cons.mp hp with h | h
    · rw [h]; norm_num
    · simp at h; rw [h]; norm_num


/-! ### Resampler: bucket range and aggregates -/

theorem foldl_min_le {α : Type} [LinearOrder α] (l : List α) (a : α) :
    l.foldl min a ≤ a ∧ ∀ x ∈ l, l.foldl min a ≤ x := by
  induction l generalizing a with
  | nil => simp
  | cons x l ih =>
    refine ⟨le_trans (ih (min a x)).1 (min_le_left _ _), ?_⟩
    intro y hy
    rcases List.mem_cons.mp hy with h | h
    · subst h
      exact le_trans (ih (min a y)).1 (min_le_right _ _)
    · exact (ih (min a x)).2 y h

theorem foldl_max_ge {α : Type} [LinearOrder α] (l : List α) (a : α) :
    a ≤ l.foldl max a ∧ ∀ x ∈ l, x ≤ l.foldl max a := by
  induction l generalizing a with
  | nil => simp
  | cons x l ih =>
    refine ⟨le_trans (le_max_left _ _) (ih (max a x)).1, ?_⟩
    intro y hy
    rcases List.mem_cons.mp hy with h | h
    · subst h
      exact le_trans (le_max_right _ _) (ih (max a y)).1
    · exact (ih (max a x)).2 y h

theorem foldl_min_choice {α : Type} [LinearOrder α] (l : List α) (a : α) :
    l.foldl min a = a ∨ l.foldl min a ∈ l := by
  induction l generalizing a with
  | nil => left; rfl
  | cons x l ih =>
    rcases ih (min a x) with h | h
    · rcases min_choice a x with hm | hm
      · left; rw [List.foldl_cons, h, hm]
      · right; rw [List.foldl_cons, h, hm]; exact List.mem_cons_self _ _
    · right; exact List.mem_cons_of_mem _ h

theorem foldl_max_choice {α : Type} [LinearOrder α] (l : List α) (a : α) :
    l.foldl max a = a ∨ l.foldl max a ∈ l := by
  induction l generalizing a with
  | nil => left; rfl
  | cons x l ih =>
    rcases ih (max a x) with h | h
    · rcases max_choice a x with hm | hm
      · left; rw [List.foldl_cons, h, hm]
      · right; rw [List.foldl_cons, h, hm]; exact List.mem_cons_self _ _
    · right; exact List.mem_cons_of_mem _ h

theorem weekEnd_mod (t : ℕ) : weekEnd t % 7 = 0 := by
  simp only [weekEnd]; omega

theorem foldl_min_weekEnd_mod (c0 : Candle) (cs : List Candle) :
    ((c0 :: cs).map (fun d => weekEnd d.ts)).foldl min (weekEnd c0.ts) % 7 = 0 := by
  rcases foldl_min_choice ((c0 :: cs).map (fun d => weekEnd d.ts)) (weekEnd c0.ts) with h | h
  · rw [h]; exact weekEnd_mod c0.ts
  · obtain ⟨d, -, hde⟩ := List.mem_map.mp h
    rw [← hde]; exact weekEnd_mod d.ts

/-- Every 7-aligned label lying between the buckets of two input candles
appears as a row of the resampler output, whether its own bucket holds a
candle or not: pandas generates every weekly bin of the observed range. -/
theorem label_row_mem (candles : List Candle) (c d : Candle) (hc : c ∈ candles)
    (hd : d ∈ candles) (lbl : ℕ) (hmod : lbl % 7 = 0)
    (hcl : weekEnd c.ts ≤ lbl) (hld : lbl ≤ weekEnd d.ts) :
    aggBucket lbl (bucketMembers candles lbl) ∈ resampleW candles := by
  rcases candles with _ | ⟨c0, cs⟩
  · simp at hc
  simp only [resampleW]
  set lo := ((c0 :: cs).map (fun e => weekEnd e.ts)).foldl min (weekEnd c0.ts) with hlo
  set hi := ((c0 :: cs).map (fun e => weekEnd e.ts)).foldl max (weekEnd c0.ts) with hhi
  have hcmem : weekEnd c.ts ∈ (c0 :: cs).map (fun e => weekEnd e.ts) :=
    List.mem_map.mpr ⟨c, hc, rfl⟩
  have hdmem : weekEnd d.ts ∈ (c0 :: cs).map (fun e => weekEnd e.ts) :=
    List.mem_map.mpr ⟨d, hd, rfl⟩
  have h1 : lo ≤ weekEnd c.ts :=
    (foldl_min_le ((c0 :: cs).map (fun e => weekEnd e.ts)) (weekEnd c0.ts)).2 _ hcmem
  have h2 : weekEnd d.ts ≤ hi :=
    (foldl_max_ge ((c0 :: cs).map (fun e => weekEnd e.ts)) (weekEnd c0.ts)).2 _ hdmem
  have hlo7 : lo % 7 = 0 := foldl_min_weekEnd_mod c0 cs
  apply List.mem_map.mpr
  refine ⟨(lbl - lo) / 7, List.mem_range.mpr (by omega), ?_⟩
  have he : lo + 7 * ((lbl - lo) / 7) = lbl := by omega
  rw [he]

/-- The aggregate row of the bucket of any input candle appears in the
resampler output. -/
theorem aggRow_mem (candles : List Candle) (c : Candle) (hc : c ∈ candles) :
    aggBucket (weekEnd c.ts) (bucketMembers candles (weekEnd c.ts)) ∈ resampleW candles :=
  label_row_mem candles c c hc hc (weekEnd c.ts) (weekEnd_mod c.ts) le_rfl le_rfl

theorem resample_ts_pairwise (candles : List Candle) :
    ((resampleW candles).map WRow.ts).Pairwise (· < ·) := by
  rcases candles with _ | ⟨c0, cs⟩
  · simp [resampleW]
  simp only [resampleW]
  rw [List.map_map, List.pairwise_map]
  refine (List.pairwise_lt_range _).imp ?_
  intro a b hab
  show (aggBucket _ _).ts < (aggBucket _ _).ts
  dsimp only [aggBucket]
  omega

theorem resample_ts_mod (candles : List Candle) (w : WRow) (hw : w ∈ resampleW candles) :
    w.ts % 7 = 0 := by
  rcases candles with _ | ⟨c0, cs⟩
  · simp [resampleW] at hw
  simp only [resampleW] at hw
  obtain ⟨i, -, hfe⟩ := List.mem_map.mp hw
  subst hfe
  dsimp only [aggBucket]
  have hlo7 := foldl_min_weekEnd_mod c0 cs
  omega

theorem resample_empty_fields (candles : List Candle) (w : WRow)
    (hw : w ∈ resampleW candles) (he : bucketMembers candles w.ts = []) :
    w.open_ = Option.none ∧ w.high = Option.none ∧ w.low = Option.none ∧
    w.close = Option.none ∧ w.volume = 0 := by
  rcases candles with _ | ⟨c0, cs⟩
  · simp [resampleW] at hw
  simp only [resampleW] at hw
  obtain ⟨i, -, hfe⟩ := List.mem_map.mp hw
  subst hfe
  dsimp only [aggBucket] at he ⊢
  rw [he]
  simp [maxO, minO]

/-! ### C3: empty buckets in the resampler output -/

/-- C3 counterexample: with candles on days 1 and 15 only, the intermediate
weekly bucket closing at day 14 contains zero candles, yet the resampler
emits a row for it — an empty/NaN row with volume 0, not an omitted bucket. -/
theorem resample_emits_empty_bucket_row :
    bucketMembers [⟨1,1,1,1,1,1⟩, ⟨15,2,2,2,2,2⟩] 14 = [] ∧
    (resampleW [⟨1,1,1,1,1,1⟩, ⟨15,2,2,2,2,2⟩]).map WRow.ts = [7, 14, 21] ∧
    (resampleW [⟨1,1,1,1,1,1⟩, ⟨15,2,2,2,2,2⟩]).get? 1 =
      Option.some ⟨14, Option.none, Option.none, Option.none, Option.none, 0⟩ := by
  refine ⟨by decide, by decide, by decide⟩

/-- C3 amended: the resampler emits one row per weekly bucket boundary from
the first candle's bucket to the last candle's bucket, in strictly increasing
order; buckets inside that range holding zero candles are not omitted but
emitted as rows whose OHLC aggregates are all NaN and whose volume is 0.
Conjuncts: every candle's own bucket appears; every 7-aligned boundary
between the buckets of two candles appears — even when its bucket is empty;
the row labels are strictly increasing bucket boundaries; rows of empty
buckets carry NaN OHLC and volume 0. -/
theorem resample_rows_amended :
    ∀ candles : List Candle,
      (∀ c ∈ candles, ∃ w ∈ resampleW candles, w.ts = weekEnd c.ts) ∧
      (∀ c ∈ candles, ∀ d ∈ candles, ∀ lbl : ℕ, lbl % 7 = 0 →
        weekEnd c.ts ≤ lbl → lbl ≤ weekEnd d.ts →
        ∃ w ∈ resampleW candles, w.ts = lbl) ∧
      ((resampleW candles).map WRow.ts).Pairwise (· < ·) ∧
      (∀ w ∈ resampleW candles, w.ts % 7 = 0) ∧
      (∀ w ∈ resampleW candles, bucketMembers candles w.ts = [] →
        w.open_ = Option.none ∧ w.high = Option.none ∧ w.low = Option.none ∧
        w.close = Option.none ∧ w.volume = 0) := by
  intro candles
  refine ⟨?_, ?_, resample_ts_pairwise candles, resample_ts_mod candles,
    resample_empty_fields candles⟩
  · intro c hc
    exact ⟨aggBucket (weekEnd c.ts) (bucketMembers candles (weekEnd c.ts)),
      aggRow_mem candles c hc, rfl⟩
  · intro c hc d hd lbl hmod h1 h2
    exact ⟨aggBucket lbl (bucketMembers candles lbl),
      label_row_mem candles c d hc hd lbl hmod h1 h2, rfl⟩

/-- C3 amended witness: at the concrete two-candle input of the
counterexample, the bucket of the first candle (closing day 7) appears, and
so does the empty in-range bucket closing day 14 (between bucket 7 of the
candle on day 1 and bucket 21 of the candle on day 15). -/
theorem resample_rows_amended_witness :
    (∃ w ∈ resampleW [⟨1,1,1,1,1,1⟩, ⟨15,2,2,2,2,2⟩], w.ts = weekEnd 1) ∧
    (∃ w ∈ resampleW [⟨1,1,1,1,1,1⟩, ⟨15,2,2,2,2,2⟩], w.ts = 14) := by
  constructor
  · exact (resample_rows_amended [⟨1,1,1,1,1,1⟩, ⟨15,2,2,2,2,2⟩]).1
      ⟨1,1,1,1,1,1⟩ (by decide)
  · exact (resample_rows_amended [⟨1,1,1,1,1,1⟩, ⟨15,2,2,2,2,2⟩]).2.1
      ⟨1,1,1,1,1,1⟩ (by decide) ⟨15,2,2,2,2,2⟩ (by decide) 14
      (by decide) (by decide) (by decide)

/-! ### C7: OHLCV aggregation per non-empty bucket -/

/-- C7: for every non-empty weekly bucket of a strictly increasing input
series, the resampler output holds an aggregate row whose open is the open
of the first constituent (in timestamp order: the constituents are listed
strictly increasing), whose close is the close of the last, whose volume is
the sum of constituent volumes, whose high is a constituent high that bounds
every constituent high from above, and whose low is a constituent low that
bounds every constituent low from below. -/
theorem resample_agg_ohlcv :
    ∀ candles : List Candle, (candles.map Candle.ts).Pairwise (· < ·) →
    ∀ lbl : ℕ, bucketMembers candles lbl ≠ [] →
    ∃ w ∈ resampleW candles,
      w.ts = lbl ∧
      w.open_ = (bucketMembers candles lbl).head?.map Candle.open_ ∧
      w.close = (bucketMembers candles lbl).getLast?.map Candle.close ∧
      w.volume = ((bucketMembers candles lbl).map Candle.volume).sum ∧
      ((bucketMembers candles lbl).map Candle.ts).Pairwise (· < ·) ∧
      (∃ hv : ℚ, w.high = Option.some hv ∧
        hv ∈ (bucketMembers candles lbl).map Candle.high ∧
        ∀ c ∈ bucketMembers candles lbl, c.high ≤ hv) ∧
      (∃ lv : ℚ, w.low = Option.some lv ∧
        lv ∈ (bucketMembers candles lbl).map Candle.low ∧
        ∀ c ∈ bucketMembers candles lbl, lv ≤ c.low) := by
  intro candles hsort lbl hne
  obtain ⟨c0, hc0⟩ := List.exists_mem_of_ne_nil _ hne
  have hc0m := List.mem_filter.mp hc0
  have hlbl : weekEnd c0.ts = lbl := by simpa using hc0m.2
  refine ⟨aggBucket lbl (bucketMembers candles lbl), ?_, rfl, rfl, rfl, rfl, ?_, ?_, ?_⟩
  · rw [← hlbl]; exact aggRow_mem candles c0 hc0m.1
  · exact hsort.sublist ((List.filter_sublist _).map Candle.ts)
  · rcases hmem : bucketMembers candles lbl with _ | ⟨m0, ms⟩
    · exact absurd hmem hne
    refine ⟨(ms.map Candle.high).foldl max m0.high, ?_, ?_, ?_⟩
    · simp [aggBucket, hmem, maxO]
    · rcases foldl_max_choice (ms.map Candle.high) m0.high with h | h
      · rw [h]; simp
      · simp only [List.map_cons]
        exact List.mem_cons_of_mem _ h
    · intro c hcm
      rcases List.mem_cons.mp hcm with h | h
      · subst h; exact (foldl_max_ge (ms.map Candle.high) c.high).1
      · exact (foldl_max_ge (ms.map Candle.high) m0.high).2 c.high
          (List.mem_map.mpr ⟨c, h, rfl⟩)
  · rcases hmem : bucketMembers candles lbl with _ | ⟨m0, ms⟩
    · exact absurd hmem hne
    refine ⟨(ms.map Candle.low).foldl min m0.low, ?_, ?_, ?_⟩
    · simp [aggBucket, hmem, minO]
    · rcases foldl_min_choice (ms.map Candle.low) m0.low with h | h
      · rw [h]; simp
      · simp only [List.map_cons]
        exact List.mem_cons_of_mem _ h
    · intro c hcm
      rcases List.mem_cons.mp hcm with h | h
      · subst h; exact (foldl_min_le (ms.map Candle.low) c.low).1
      · exact (foldl_min_le (ms.map Candle.low) m0.low).2 c.low
          (List.mem_map.mpr ⟨c, h, rfl⟩)

/-- C7 witness: two candles in the same week (days 1 and 2, bucket closing
day 7); the aggregate row for bucket 7 exists and takes its close from the
last constituent. -/
theorem resample_agg_ohlcv_witness :
    ∃ w ∈ resampleW [⟨1,2,5,1,3,4⟩, ⟨2,3,7,2,4,6⟩], w.ts = 7 ∧
      w.close = (bucketMembers [⟨1,2,5,1,3,4⟩, ⟨2,3,7,2,4,6⟩] 7).getLast?.map Candle.close ∧
      w.volume = ((bucketMembers [⟨1,2,5,1,3,4⟩, ⟨2,3,7,2,4,6⟩] 7).map Candle.volume).sum := by
  obtain ⟨w, hw, h1, -, h3, h4, -, -, -⟩ :=
    resample_agg_ohlcv [⟨1,2,5,1,3,4⟩, ⟨2,3,7,2,4,6⟩] (by decide) 7 (by decide)
  exact ⟨w, hw, h1, h3, h4⟩

/-! ### Indicator engine: undefined prefixes, counts and bounds -/

theorem someCount_cons_none (l : List (Option ℚ)) :
    someCount (Option.none :: l) = someCount l := by
  simp [someCount]

theorem someCount_cons_some (v : ℚ) (l : List (Option ℚ)) :
    someCount (Option.some v :: l) = someCount l + 1 := by
  simp [someCount, List.countP_cons]

theorem someCount_le_length (l : List (Option ℚ)) : someCount l ≤ l.length :=
  List.countP_le_length _

theorem omap2_right_none (f : ℚ → ℚ → ℚ) (u : Option ℚ) :
    omap2 f u Option.none = Option.none := by
  cases u <;> rfl

theorem rsiCombine_left_none (v : Option ℚ) :
    rsiCombine Option.none v = Option.none := by
  cases v <;> rfl

theorem mem_zipWith_exists {α β γ : Type} (f : α → β → γ) :
    ∀ (as : List α) (bs : List β) (y : γ), y ∈ List.zipWith f as bs →
      ∃ u ∈ as, ∃ v ∈ bs, y = f u v := by
  intro as
  induction as with
  | nil => intro bs y hy; simp at hy
  | cons a as ih =>
    intro bs y hy
    rcases bs with _ | ⟨b, bs⟩
    · simp at hy
    rcases List.mem_cons.mp hy with h | h
    · exact ⟨a, List.mem_cons_self _ _, b, List.mem_cons_self _ _, h⟩
    · obtain ⟨u, hu, v, hv, he⟩ := ih bs y h
      exact ⟨u, List.mem_cons_of_mem _ hu, v, List.mem_cons_of_mem _ hv, he⟩

/-- The exponential smoothing emits NaN at every position among the first `k`
as long as fewer than `minp` observations have accumulated there. -/
theorem ewm_take_none (a : ℚ) (minp : ℕ) :
    ∀ (xs : List (Option ℚ)) (st : Option ℚ) (wt : ℚ) (cnt k : ℕ),
      cnt + someCount (xs.take k) < minp →
      ∀ y ∈ (ewmGo a minp st wt cnt xs).take k, y = Option.none := by
  intro xs
  induction xs with
  | nil => intro st wt cnt k h y hy; cases st <;> simp [ewmGo] at hy
  | cons o xs ih =>
    intro st wt cnt k h y hy
    cases k with
    | zero => simp at hy
    | succ k2 =>
      cases o with
      | none =>
        rw [List.take_succ_cons, someCount_cons_none] at h
        cases st with
        | none =>
          simp only [ewmGo, List.take_succ_cons] at hy
          rcases List.mem_cons.mp hy with hh | hh
          · exact hh
          · exact ih Option.none wt cnt k2 h y hh
        | some p =>
          simp only [ewmGo, List.take_succ_cons] at hy
          rcases List.mem_cons.mp hy with hh | hh
          · rw [hh, if_neg (by omega)]
          · exact ih (Option.some p) ((1 - a) * wt) cnt k2 h y hh
      | some v =>
        rw [List.take_succ_cons, someCount_cons_some] at h
        cases st with
        | none =>
          simp only [ewmGo, List.take_succ_cons] at hy
          rcases List.mem_cons.mp hy with hh | hh
          · rw [hh, if_neg (by omega)]
          · exact ih (Option.some v) 1 (cnt + 1) k2 (by omega) y hh
        | some p =>
          simp only [ewmGo, List.take_succ_cons] at hy
          rcases List.mem_cons.mp hy with hh | hh
          · rw [hh, if_neg (by omega)]
          · exact ih (Option.some _) 1 (cnt + 1) k2 (by omega) y hh

/-- With fewer than `minp` observations in the whole input, every output of
the exponential smoothing is NaN. -/
theorem ewm_all_none (a : ℚ) (minp : ℕ) (xs : List (Option ℚ)) (st : Option ℚ)
    (wt : ℚ) (cnt : ℕ) (h : cnt + someCount xs < minp) :
    ∀ y ∈ ewmGo a minp st wt cnt xs, y = Option.none := by
  intro y hy
  have htake : (ewmGo a minp st wt cnt xs).take xs.length = ewmGo a minp st wt cnt xs := by
    rw [← length_ewmGo a minp st wt cnt xs]
    exact List.take_length _
  refine ewm_take_none a minp xs st wt cnt xs.length ?_ y (by rw [htake]; exact hy)
  rwa [List.take_length]

/-- Exponential smoothing of non-negative observations with `0 ≤ a ≤ 1` and
a non-negative old weight keeps every defined output non-negative. -/
theorem ewm_nonneg (a : ℚ) (ha0 : 0 ≤ a) (ha1 : a ≤ 1) (minp : ℕ) :
    ∀ (xs : List (Option ℚ)) (st : Option ℚ) (wt : ℚ) (cnt : ℕ),
      0 ≤ wt →
      (∀ p : ℚ, st = Option.some p → 0 ≤ p) →
      (∀ o ∈ xs, ∀ x : ℚ, o = Option.some x → 0 ≤ x) →
      ∀ y ∈ ewmGo a minp st wt cnt xs, ∀ x : ℚ, y = Option.some x → 0 ≤ x := by
  intro xs
  induction xs with
  | nil => intro st wt cnt hwt hst hxs y hy; cases st <;> simp [ewmGo] at hy
  | cons o xs ih =>
    intro st wt cnt hwt hst hxs y hy x hyx
    have hxs2 : ∀ o2 ∈ xs, ∀ x2 : ℚ, o2 = Option.some x2 → 0 ≤ x2 :=
      fun o2 ho2 => hxs o2 (List.mem_cons_of_mem _ ho2)
    cases o with
    | none =>
      cases st with
      | none =>
        simp only [ewmGo] at hy
        rcases List.mem_cons.mp hy with hh | hh
        · subst hh; simp at hyx
        · exact ih Option.none wt cnt hwt hst hxs2 y hh x hyx
      | some p =>
        simp only [ewmGo] at hy
        rcases List.mem_cons.mp hy with hh | hh
        · subst hh
          split at hyx
          · exact hst x hyx
          · simp at hyx
        · exact ih (Option.some p) ((1 - a) * wt) cnt
            (mul_nonneg (by linarith) hwt) hst hxs2 y hh x hyx
    | some v =>
      have hv : (0:ℚ) ≤ v := hxs (Option.some v) (List.mem_cons_self _ _) v rfl
      cases st with
      | none =>
        simp only [ewmGo] at hy
        rcases List.mem_cons.mp hy with hh | hh
        · subst hh
          split at hyx
          · cases hyx; exact hv
          · simp at hyx
        · refine ih (Option.some v) 1 (cnt + 1) (by norm_num) ?_ hxs2 y hh x hyx
          intro p hp
          cases hp; exact hv
      | some q =>
        have hq : (0:ℚ) ≤ q := hst q rfl
        have hw2 : (0:ℚ) ≤ (1 - a) * wt := mul_nonneg (by linarith) hwt
        have hst2 : (0:ℚ) ≤ ((1 - a) * wt * q + a * v) / ((1 - a) * wt + a) := by
          apply div_nonneg
          · have h1 : (0:ℚ) ≤ (1 - a) * wt * q := mul_nonneg hw2 hq
            have h2 : (0:ℚ) ≤ a * v := mul_nonneg ha0 hv
            linarith
          · linarith
        simp only [ewmGo] at hy
        rcases List.mem_cons.mp hy with hh | hh
        · subst hh
          split at hyx
          · cases hyx; exact hst2
          · simp at hyx
        · refine ih (Option.some (((1 - a) * wt * q + a * v) / ((1 - a) * wt + a)))
            1 (cnt + 1) (by norm_num) ?_ hxs2 y hh x hyx
          intro p hp
          cases hp; exact hst2

theorem alpha_unit (w : ℕ) : 0 ≤ 1 / (w:ℚ) ∧ 1 / (w:ℚ) ≤ 1 := by
  rcases w with _ | n
  · norm_num
  · constructor
    · positivity
    · rw [div_le_one (by positivity)]
      exact_mod_cast Nat.succ_le_succ (Nat.zero_le n)

theorem rsiFromAvgs_range (up dn : ℚ) (hu : 0 ≤ up) (hd : 0 ≤ dn) :
    ∀ x : ℚ, rsiFromAvgs up dn = Option.some x → 0 ≤ x ∧ x ≤ 100 := by
  intro x hx
  unfold rsiFromAvgs at hx
  by_cases h1 : dn = 0
  · rw [if_pos h1] at hx
    have hx100 : (100:ℚ) = x := Option.some.inj hx
    constructor <;> linarith
  · rw [if_neg h1] at hx
    have hdpos : 0 < dn := lt_of_le_of_ne hd (fun h => h1 h.symm)
    have hq : 0 ≤ up / dn := div_nonneg hu hd
    have h1q : (1:ℚ) ≤ 1 + up / dn := by linarith
    have hpos : 0 < 100 / (1 + up / dn) := by positivity
    have hle : 100 / (1 + up / dn) ≤ 100 := div_le_self (by norm_num) h1q
    have hxe : 100 - 100 / (1 + up / dn) = x := Option.some.inj hx
    constructor <;> linarith

/-- Every defined RSI output value lies in [0,100]. -/
theorem rsi_values_bounded (window : ℕ) (closes : List (Option ℚ)) :
    ∀ v ∈ rsiSeriesO window closes, ∀ x : ℚ, v = Option.some x → 0 ≤ x ∧ x ≤ 100 := by
  intro v hv x hvx
  simp only [rsiSeriesO] at hv
  obtain ⟨u, hu, d, hd, he⟩ := mem_zipWith_exists rsiCombine _ _ v hv
  subst he
  rcases u with _ | uv
  · rw [rsiCombine_left_none] at hvx; simp at hvx
  rcases d with _ | dv
  · simp [rsiCombine] at hvx
  have hunn : (0:ℚ) ≤ uv := by
    refine ewm_nonneg _ (alpha_unit window).1 (alpha_unit window).2 window _ _ _ _
      (by norm_num) (fun p hp => by simp at hp) ?_ _ hu uv rfl
    intro o ho y hoy
    obtain ⟨o2, -, hoe⟩ := List.mem_map.mp ho
    subst hoe
    rcases o2 with _ | w2
    · have h0 : (0:ℚ) = y := Option.some.inj hoy
      linarith
    · have h0 : (if 0 < w2 then w2 else 0) = y := Option.some.inj hoy
      rw [← h0]
      by_cases hw : 0 < w2
      · rw [if_pos hw]; linarith
      · rw [if_neg hw]
  have hdnn : (0:ℚ) ≤ dv := by
    refine ewm_nonneg _ (alpha_unit window).1 (alpha_unit window).2 window _ _ _ _
      (by norm_num) (fun p hp => by simp at hp) ?_ _ hd dv rfl
    intro o ho y hoy
    obtain ⟨o2, -, hoe⟩ := List.mem_map.mp ho
    subst hoe
    rcases o2 with _ | w2
    · have h0 : (0:ℚ) = y := Option.some.inj hoy
      linarith
    · have h0 : (if w2 < 0 then -w2 else 0) = y := Option.some.inj hoy
      rw [← h0]
      by_cases hw : w2 < 0
      · rw [if_pos hw]; linarith
      · rw [if_neg hw]
  exact rsiFromAvgs_range uv dv hunn hdnn x hvx

/-- The first `window - 1` RSI outputs are always NaN: only `window - 1`
observations (the coerced first diff included) can have accumulated there,
fewer than the `min_periods = window` requirement. -/
theorem rsi_take_window_none (window : ℕ) (closes : List (Option ℚ)) :
    ∀ v ∈ (rsiSeriesO window closes).take (window - 1), v = Option.none := by
  intro v hv
  simp only [rsiSeriesO] at hv
  rw [List.take_zipWith] at hv
  obtain ⟨u, hu, d, -, he⟩ := mem_zipWith_exists rsiCombine _ _ v hv
  have hun : u = Option.none := by
    rcases window with _ | w2
    · simp at hu
    refine ewm_take_none _ _ _ _ _ _ _ ?_ u hu
    have h1 := someCount_le_length
      (((diffO closes).map whereGain).take (w2 + 1 - 1))
    have h2 := List.length_take (w2 + 1 - 1) ((diffO closes).map whereGain)
    omega
  subst he
  rw [hun, rsiCombine_left_none]

/-- On an input shorter than the window, the whole RSI column is NaN: even
with every diff coerced to a counted observation there are only
`closes.length` of them. -/
theorem rsi_all_none (window : ℕ) (closes : List (Option ℚ))
    (hc : closes.length < window) :
    ∀ v ∈ rsiSeriesO window closes, v = Option.none := by
  intro v hv
  simp only [rsiSeriesO] at hv
  obtain ⟨u, hu, d, -, he⟩ := mem_zipWith_exists rsiCombine _ _ v hv
  have hun : u = Option.none := by
    refine ewm_all_none _ _ _ _ _ _ ?_ u hu
    have h1 := someCount_le_length ((diffO closes).map whereGain)
    have h2 : ((diffO closes).map whereGain).length = closes.length := by
      rw [List.length_map, length_diffO]
    omega
  subst he
  rw [hun, rsiCombine_left_none]

/-! ### C8: RSI stays in [0,100]; the warm-up is one bar shorter than claimed -/

/-- C8 counterexample: with the code's window 14 and a flat 14-bar close
series, the RSI at bar index 13 — one of "the first `window` bars" that the
claim says are undefined — is defined, and equals 100 (the zero-loss-average
convention of `np.where(emadn == 0, 100, ...)`): ta's `where` coerces the
first NaN diff to a counted 0.0 observation, so the RSI seeds at bar
`window - 1`. -/
theorem rsi_defined_at_window_sub_one :
    (rsiSeriesO 14
      (([1,1,1,1,1,1,1,1,1,1,1,1,1,1] : List ℚ).map Option.some)).get? 13 =
      Option.some (Option.some 100) ∧ 13 < 14 := by
  constructor
  · simp +decide [rsiSeriesO, diffO, ewmMean, ewmGo, omap2, whereGain, whereLoss,
      rsiCombine, rsiFromAvgs]
  · norm_num

/-- C8 amended: for every close-price series and window size, every bar at
which the RSI is defined carries a value in the closed interval [0,100], and
the first `window - 1` bars are undefined for lack of history (the RSI seeds
one bar earlier than the window, because the first NaN diff is coerced to a
counted 0.0 observation). -/
theorem rsi_range_and_warmup :
    ∀ (window : ℕ) (closes : List ℚ),
      (∀ v ∈ rsiSeriesO window (closes.map Option.some), ∀ x : ℚ,
        v = Option.some x → 0 ≤ x ∧ x ≤ 100) ∧
      (∀ v ∈ (rsiSeriesO window (closes.map Option.some)).take (window - 1),
        v = Option.none) := by
  intro window closes
  exact ⟨rsi_values_bounded window (closes.map Option.some),
    rsi_take_window_none window (closes.map Option.some)⟩

/-- C8 witness: with window 1 and closes 0,1 the RSI at the second bar is
defined and equals 100, inside [0,100]. -/
theorem rsi_range_and_warmup_witness :
    Option.some (100:ℚ) ∈ rsiSeriesO 1 (([0,1] : List ℚ).map Option.some) ∧
    ((0:ℚ) ≤ 100 ∧ (100:ℚ) ≤ 100) := by
  have hmem : Option.some (100:ℚ) ∈ rsiSeriesO 1 (([0,1] : List ℚ).map Option.some) := by
    simp +decide [rsiSeriesO, diffO, ewmMean, ewmGo, omap2, whereGain, whereLoss,
      rsiCombine, rsiFromAvgs]
  exact ⟨hmem, (rsi_range_and_warmup 1 [0,1]).1 _ hmem 100 rfl⟩

/-! ### Degenerate (too-short) inputs -/

theorem length_filter_le_of_inj (n : ℕ) (p : ℕ → Bool) (g : ℕ → ℕ)
    (hg : Function.Injective g) (tgt : List ℕ)
    (h : ∀ i ∈ (List.range n).filter p, g i ∈ tgt) :
    ((List.range n).filter p).length ≤ tgt.length := by
  have hnd : ((List.range n).filter p).Nodup := (List.nodup_range n).filter p
  have hndm : (((List.range n).filter p).map g).Nodup := hnd.map hg
  calc ((List.range n).filter p).length
      = (((List.range n).filter p).map g).length := (List.length_map _ _).symm
    _ = (((List.range n).filter p).map g).toFinset.card :=
        (List.toFinset_card_of_nodup hndm).symm
    _ ≤ tgt.toFinset.card := by
        apply Finset.card_le_card
        intro x hx
        obtain ⟨i, hi, hix⟩ := List.mem_map.mp (List.mem_toFinset.mp hx)
        exact List.mem_toFinset.mpr (hix ▸ h i hi)
    _ ≤ tgt.length := tgt.toFinset_card_le

/-- The weekly close column has at most one defined entry per input candle:
only buckets holding a candle get a defined (non-NaN) close. -/
theorem someCount_weekly_close_le (candles : List Candle) :
    someCount ((resampleW candles).map WRow.close) ≤ candles.length := by
  rcases candles with _ | ⟨c0, cs⟩
  · simp [resampleW, someCount]
  simp only [resampleW]
  rw [List.map_map]
  unfold someCount
  rw [List.countP_map, List.countP_eq_length_filter]
  set lo := ((c0 :: cs).map (fun d => weekEnd d.ts)).foldl min (weekEnd c0.ts) with hlo
  refine le_trans (length_filter_le_of_inj _ _ (fun i => lo + 7 * i)
    (fun i j hij => by
      have h2 : lo + 7 * i = lo + 7 * j := hij
      omega) ((c0 :: cs).map (fun d => weekEnd d.ts)) ?_)
    (le_of_eq (List.length_map _ _))
  intro i hi
  have hp := (List.mem_filter.mp hi).2
  simp only [Function.comp] at hp
  rw [show (aggBucket (lo + 7 * i) (bucketMembers (c0 :: cs) (lo + 7 * i))).close
      = (bucketMembers (c0 :: cs) (lo + 7 * i)).getLast?.map Candle.close from rfl,
    Option.isSome_map'] at hp
  have hne := List.getLast?_isSome.mp hp
  obtain ⟨d, hd⟩ := List.exists_mem_of_ne_nil _ hne
  have hdm := List.mem_filter.mp hd
  exact List.mem_map.mpr ⟨d, hdm.1, by simpa using hdm.2⟩

theorem someCount_map_some (g : Candle → ℚ) (l : List Candle) :
    someCount (l.map (fun c => Option.some (g c))) = l.length := by
  unfold someCount
  rw [List.countP_map]
  have he : ((fun o : Option ℚ => o.isSome) ∘ fun c => Option.some (g c))
      = fun _ => true := by
    funext c; rfl
  rw [he, List.countP_true]

/-- The MACD line is entirely NaN when fewer than `slow` closes are defined. -/
theorem macd_all_none (fast slow : ℕ) (xs : List (Option ℚ)) (h : someCount xs < slow) :
    ∀ v ∈ macdLineO fast slow xs, v = Option.none := by
  intro v hv
  obtain ⟨u, -, d, hd, he⟩ := mem_zipWith_exists (omap2 (fun a b => a - b)) _ _ v hv
  have hdn : d = Option.none := ewm_all_none _ _ _ _ _ _ (by simpa using h) d hd
  subst he
  rw [hdn, omap2_right_none]

/-- The MACD signal line is entirely NaN when fewer than `slow` closes are
defined. -/
theorem macdSignal_all_none (fast slow sign : ℕ) (xs : List (Option ℚ))
    (h : someCount xs < slow) (hs : 0 < sign) :
    ∀ v ∈ macdSignalO fast slow sign xs, v = Option.none := by
  have hz : someCount (macdLineO fast slow xs) = 0 := by
    unfold someCount
    rw [List.countP_eq_zero]
    intro o ho
    rw [macd_all_none fast slow xs h o ho]
    simp
  intro v hv
  exact ewm_all_none _ _ _ _ _ _ (by omega) v hv

theorem zip3With_none (bt st : ℚ) :
    ∀ (as bs cs : List (Option ℚ)), (∀ u ∈ as, u = Option.none) →
      ∀ y ∈ zip3With (classifyCode bt st) as bs cs, y = Signal.none := by
  intro as
  induction as with
  | nil => intro bs cs h y hy; simp [zip3With] at hy
  | cons a as ih =>
    intro bs cs h y hy
    rcases bs with _ | ⟨b, bs⟩
    · simp [zip3With] at hy
    rcases cs with _ | ⟨c, cs⟩
    · simp [zip3With] at hy
    rcases List.mem_cons.mp hy with hh | hh
    · subst hh
      rw [h a (List.mem_cons_self _ _)]
      rfl
    · exact ih bs cs (fun u hu => h u (List.mem_cons_of_mem _ hu)) y hh

theorem align_all_none (coarse : List (ℕ × Signal)) (t : ℕ)
    (h : ∀ p ∈ coarse, p.2 = Signal.none) : alignSignal coarse t = Signal.none := by
  unfold alignSignal reindexFfill
  rcases hg : (coarse.filter (fun p => decide (p.1 ≤ t))).getLast? with _ | p
  · rw [hg]; rfl
  · have hp : p ∈ coarse :=
      (List.mem_filter.mp (List.mem_of_mem_getLast? (by rw [hg]; rfl))).1
    rw [hg]
    simp only [Option.map_some']
    rw [show fillnaNone (Option.some p.2) = p.2 from rfl, h p hp]

theorem zip_pair_snd_mem :
    ∀ (ws : List WRow) (ss : List Signal) (p : ℕ × Signal),
      p ∈ List.zipWith (fun (r : WRow) s => (r.ts, s)) ws ss → p.2 ∈ ss := by
  intro ws
  induction ws with
  | nil => intro ss p hp; simp at hp
  | cons w ws ih =>
    intro ss p hp
    rcases ss with _ | ⟨s, ss⟩
    · simp at hp
    rcases List.mem_cons.mp hp with h | h
    · subst h; exact List.mem_cons_self _ _
    · exact List.mem_cons_of_mem _ (ih ss p h)

/-- A bar with an undefined MACD line classifies as NONE, whatever the other
two indicator values are. -/
theorem classify_macd_none (bt st : ℚ) (r s : Option ℚ) :
    classifyCode bt st r Option.none s = Signal.none := by
  rcases r with _ | rv <;> rcases s with _ | sv <;> simp [classifyCode, oLt]

theorem zip3With_none_macd (bt st : ℚ) :
    ∀ (as bs cs : List (Option ℚ)), (∀ u ∈ bs, u = Option.none) →
      ∀ y ∈ zip3With (classifyCode bt st) as bs cs, y = Signal.none := by
  intro as
  induction as with
  | nil => intro bs cs h y hy; simp [zip3With] at hy
  | cons a as ih =>
    intro bs cs h y hy
    rcases bs with _ | ⟨b, bs⟩
    · simp [zip3With] at hy
    rcases cs with _ | ⟨c, cs⟩
    · simp [zip3With] at hy
    rcases List.mem_cons.mp hy with hh | hh
    · subst hh
      rw [h b (List.mem_cons_self _ _)]
      exact classify_macd_none bt st a c
    · exact ih bs cs (fun u hu => h u (List.mem_cons_of_mem _ hu)) y hh

/-- On fewer than 26 input candles every weekly signal is NONE: the weekly
close column has at most one defined entry per candle, too few to seed the
slow EMA, so the weekly MACD line is entirely NaN (the weekly RSI may be
defined, through diffs coerced to 0.0 at empty buckets, but both masks need
the MACD comparison). -/
theorem weeklySignals_all_none (bW sW : ℚ) (candles : List Candle)
    (hlen : candles.length < 26) :
    ∀ s ∈ weeklySignals bW sW (resampleW candles), s = Signal.none := by
  intro s hs
  unfold weeklySignals at hs
  refine zip3With_none_macd bW sW _ _ _ ?_ s hs
  exact macd_all_none 12 26 _ (lt_of_le_of_lt (someCount_weekly_close_le candles) hlen)

/-! ### C6: undefined indicators classify as NONE; short inputs degenerate -/

/-- C6: a bar whose rsi, macd or macd_signal is NaN always classifies as
NONE; and on an input too short to seed any indicator window (at most 13
bars — one fewer than the 14 needed for the RSI, the first indicator to
become defined) every daily indicator column is entirely NaN, the daily and
weekly signals and the hybrid trade signal are NONE at every bar, and the
pipeline still emits a full-length (degenerate) hybrid series. -/
theorem undefined_indicators_none :
    (∀ (bt st : ℚ) (r m s : Option ℚ),
        r = Option.none ∨ m = Option.none ∨ s = Option.none →
        classifyCode bt st r m s = Signal.none) ∧
    (∀ (bD sD bW sW : ℚ) (input : List Candle), input.length ≤ 13 →
      (pipeline bD sD bW sW input).length = input.length ∧
      ∀ r ∈ pipeline bD sD bW sW input,
        r.rsi = Option.none ∧ r.macd = Option.none ∧ r.macdSig = Option.none ∧
        r.dailySig = Signal.none ∧ r.weeklySig = Signal.none ∧
        r.tradeSig = Signal.none) := by
  constructor
  · intro bt st r m s h
    rcases r with _ | rv
    · rfl
    rcases m with _ | mv
    · rcases s with _ | sv <;> simp [classifyCode, oLt]
    rcases s with _ | sv
    · simp [classifyCode, oLt]
    · rcases h with h | h | h <;> simp at h
  · intro bD sD bW sW input hlen
    have hsc : someCount (input.map (fun c => Option.some c.close)) = input.length :=
      someCount_map_some _ input
    have hcl : (input.map (fun c => Option.some c.close)).length < 14 := by
      rw [List.length_map]; omega
    constructor
    · have h := congrArg List.length (pipeline_map_eq_input bD sD bW sW input)
      simpa using h
    intro r hr
    obtain ⟨-, hrsi, hmacd, hsig, hds, hws, hts⟩ := buildRows_mem _ _ _ _ _ _ r hr
    have hr1 : r.rsi = Option.none :=
      rsi_all_none 14 _ hcl _ hrsi
    have hr2 : r.macd = Option.none :=
      macd_all_none 12 26 _ (by omega) _ hmacd
    have hr3 : r.macdSig = Option.none :=
      macdSignal_all_none 12 26 9 _ (by omega) (by norm_num) _ hsig
    have hr4 : r.dailySig = Signal.none := by
      refine zip3With_none bD sD _ _ _ ?_ _ hds
      exact rsi_all_none 14 _ hcl
    have hr5 : r.weeklySig = Signal.none := by
      rw [hws]
      refine align_all_none _ _ ?_
      intro p hp
      exact weeklySignals_all_none bW sW input (by omega) p.2 (zip_pair_snd_mem _ _ p hp)
    have hr6 : r.tradeSig = Signal.none := by
      rw [hts, hr4, hr5]
      rfl
    exact ⟨hr1, hr2, hr3, hr4, hr5, hr6⟩

/-- C6 witness: a single-candle input (length 1 ≤ 13) classifies everything
as NONE and still yields a one-row hybrid series; the classifier with NaN
rsi returns NONE. -/
theorem undefined_indicators_none_witness :
    classifyCode 50 65 Option.none Option.none Option.none = Signal.none ∧
    ([(⟨0,1,1,1,1,1⟩ : Candle)].length ≤ 13) ∧
    (pipeline 50 65 50 55 [⟨0,1,1,1,1,1⟩]).length = 1 := by
  refine ⟨undefined_indicators_none.1 50 65 _ _ _ (Or.inl rfl), by decide, ?_⟩
  have h := (undefined_indicators_none.2 50 65 50 55 [⟨0,1,1,1,1,1⟩] (by decide)).1
  simpa using h

/-! ### C10: the three signal columns are total over {BUY, SELL, NONE} -/

/-- C10: at every bar of the final frame each of the three signal columns is
exactly one of BUY, SELL or the NONE sentinel and never NaN; the forward-fill
alignment produces NaN exactly at fine timestamps preceding the first weekly
bucket close, and `.fillna("")` replaces it with the NONE sentinel, which is
what the weekly column of every pipeline row carries. -/
theorem signal_columns_total :
    (∀ (bD sD bW sW : ℚ) (input : List Candle), ∀ r ∈ pipeline bD sD bW sW input,
      (r.dailySig = Signal.buy ∨ r.dailySig = Signal.sell ∨ r.dailySig = Signal.none) ∧
      (r.weeklySig = Signal.buy ∨ r.weeklySig = Signal.sell ∨ r.weeklySig = Signal.none) ∧
      (r.tradeSig = Signal.buy ∨ r.tradeSig = Signal.sell ∨ r.tradeSig = Signal.none)) ∧
    (∀ (coarse : List (ℕ × Signal)) (t : ℕ), (∀ p ∈ coarse, t < p.1) →
      reindexFfill coarse t = Option.none ∧
      fillnaNone (reindexFfill coarse t) = Signal.none) ∧
    (∀ (bD sD bW sW : ℚ) (input : List Candle), ∀ r ∈ pipeline bD sD bW sW input,
      r.weeklySig = fillnaNone (reindexFfill (coarseSeries bW sW input) r.candle.ts)) := by
  have htot : ∀ s : Signal, s = Signal.buy ∨ s = Signal.sell ∨ s = Signal.none := by
    intro s; cases s
    · exact Or.inl rfl
    · exact Or.inr (Or.inl rfl)
    · exact Or.inr (Or.inr rfl)
  refine ⟨?_, ?_, ?_⟩
  · intro bD sD bW sW input r hr
    exact ⟨htot _, htot _, htot _⟩
  · intro coarse t h
    have hnil : coarse.filter (fun p => decide (p.1 ≤ t)) = [] :=
      List.filter_eq_nil_iff.mpr (fun p hp => by simpa using Nat.not_le.mpr (h p hp))
    constructor
    · simp [reindexFfill, hnil]
    · simp [reindexFfill, hnil, fillnaNone]
  · intro bD sD bW sW input r hr
    exact (buildRows_mem _ _ _ _ _ _ r hr).2.2.2.2.2.1

/-- C10 witness: with a single weekly bucket closing at day 7, the reindex at
day 3 (before the first close) yields NaN and the fillna turns it into the
NONE sentinel. -/
theorem signal_columns_total_witness :
    reindexFfill [(7, Signal.buy)] 3 = Option.none ∧
    fillnaNone (reindexFfill [(7, Signal.buy)] 3) = Signal.none := by
  refine signal_columns_total.2.1 [(7, Signal.buy)] 3 ?_
  intro p hp
  have hpe : p = (7, Signal.buy) := by simpa using hp
  rw [hpe]
  norm_num
